import Mathlib

/-!
Verification of the bmusic core: the midi event parser (`bmusic/midi.py`)
and the actuator scheduler (`bmusic/proc/mechanical.py`), shallowly embedded
in Lean.  Times are modelled as rationals (Python floats carry exact values
for the inputs considered here), Python lists as Lean lists, and exceptions
as `Except Unit`.
-/

namespace BMusic

/-- A parsed note, mirroring `bmusic.midi.Note`: pitch (`note`), velocity,
absolute start and end frames, and its index in the owning track
(`Note.__init__`'s `index` parameter, referred to as `ind` by the scheduler). -/
structure Note where
  note : Nat
  velocity : Nat
  start : ℚ
  end_ : ℚ
  ind : Nat
  deriving DecidableEq

/-- Message kinds of the incoming event stream: `note_on`, `note_off`, and
any other midi message (which only advances time). -/
inductive MsgType where
  | note_on
  | note_off
  | other
  deriving DecidableEq

/-- One event of the raw stream: type, pitch, velocity and the relative time
delta (seconds) to the previous event, as provided by mido. -/
structure Msg where
  type : MsgType
  note : Nat
  velocity : Nat
  time : ℚ
  deriving DecidableEq

/-- Source `Note.diff`: difference in frames between this note's and another's start. -/
def Note.diff (self other : Note) : ℚ :=
  self.start - other.start

/-- Source `Note.next`: the next note of the owning midi (`self.midi.notes[ind]`
after the bound check `ind >= len(...)`), `none` past the end. -/
def Note.next (midiNotes : List Note) (self : Note) : Option Note :=
  let ind := self.ind + 1
  if midiNotes.length ≤ ind then none else midiNotes.get? ind

/-- Source `Note.prev`: the previous note of the owning midi, `none` when
`self.index - 1 < 0`. -/
def Note.prev (midiNotes : List Note) (self : Note) : Option Note :=
  match self.ind with
  | 0 => none
  | k + 1 => midiNotes.get? k

/-- The parsing loop of `Midi.__init__`.  State: per-pitch pending start
frames (`starts`, a 1000-slot table), per-pitch pending velocities (`vels`),
the absolute frame accumulator, the `started` flag and the notes emitted so
far.  A pitch outside the 1000-slot tables raises (IndexError); emitting a
note while `offset` is `none` raises (`starts[note] + None` is a TypeError). -/
def initLoop (fps : ℚ) (offset : Option ℚ) :
    List Msg → (Nat → ℚ) → (Nat → Nat) → ℚ → Bool → List Note →
    Except Unit (List Note)
  | [], _, _, _, _, notes => .ok notes
  | msg :: rest, starts, vels, frame, started, notes =>
    let frame' := if started then frame + msg.time * fps else frame
    match msg.type with
    | .other => initLoop fps offset rest starts vels frame' started notes
    | t =>
      if 1000 ≤ msg.note then .error ()
      else
        let vel := if t = .note_on then msg.velocity else 0
        if vel = 0 then
          match offset with
          | none => .error ()
          | some off =>
            let n : Note :=
              ⟨msg.note, vels msg.note, starts msg.note + off, frame' + off,
               notes.length⟩
            initLoop fps offset rest starts vels frame' true (notes ++ [n])
        else
          initLoop fps offset rest
            (fun p => if p = msg.note then frame' else starts p)
            (fun p => if p = msg.note then vel else vels p)
            frame' true notes

/-- Source `Midi.__init__`: parse an event stream at the given fps with the given
offset (default `None` in the source), producing the track's note list. -/
def Midi.init (msgs : List Msg) (fps : ℚ) (offset : Option ℚ) :
    Except Unit (List Note) :=
  initLoop fps offset msgs (fun _ => 0) (fun _ => 0) 0 false []

/-- Source `Midi.length`: duration between first note's start and last note's end. -/
def Midi.length (notes : List Note) : ℚ :=
  (notes.getLastD ⟨0, 0, 0, 0, 0⟩).end_ - (notes.headD ⟨0, 0, 0, 0, 0⟩).start

/-- Source `Midi.notes_used`: the set of pitches appearing in the track. -/
def Midi.notes_used (notes : List Note) : Finset Nat :=
  (notes.map Note.note).toFinset

/-- Source `Scheduling.DIST_LINEAR`: `abs(x - y)` on note indices. -/
def DIST_LINEAR (x y : Nat) : ℚ := |(x : ℚ) - (y : ℚ)|

/-- Source `Scheduling.DIST_SQUARE`: `(x - y) ** 2` on note indices. -/
def DIST_SQUARE (x y : Nat) : ℚ := ((x : ℚ) - (y : ℚ)) ^ 2

/-- Configuration of `Scheduling.__init__`: the number of animation keys
(`len(animkeys)`), `idle_time`, the distance function `dist_f`, `depth`,
`reward_decay` and the `no_overlap` flag. -/
structure Scheduling where
  nAct : Nat
  idle_time : ℚ
  dist_f : Nat → Nat → ℚ
  depth : Nat
  reward_decay : ℚ
  no_overlap : Bool

/-- The per-actuator reward computed inside `Scheduling.animate`: the large
sentinel `1e6` for a never-assigned actuator, otherwise
`(note.start - status[i][1]) - dist_f(note.ind, status[i][0])`. -/
def rewardFor (dist : Nat → Nat → ℚ) (note : Note) (st : Option Nat × ℚ) : ℚ :=
  match st.1 with
  | none => 1000000
  | some lastInd => (note.start - st.2) - dist note.ind lastInd

/-- Python's `max` on a nonempty list of rationals (0 on `[]`, where the
source would raise). -/
def maxList : List ℚ → ℚ
  | [] => 0
  | [x] => x
  | x :: y :: ys => max x (maxList (y :: ys))

/-- Numpy `np.argmax`: the index of the first occurrence of the maximum
(0 on `[]`, where the source would raise). -/
def argmaxIdx : List ℚ → Nat
  | [] => 0
  | [_] => 0
  | x :: y :: ys => if maxList (y :: ys) ≤ x then 0 else argmaxIdx (y :: ys) + 1

/-- Source `notes[index].append(note)`: append `note` to the `k`-th bucket. -/
def appendAt : List (List Note) → Nat → Note → List (List Note)
  | [], _, _ => []
  | b :: bs, 0, n => (b ++ [n]) :: bs
  | b :: bs, k + 1, n => b :: appendAt bs k n

/-- The scheduling loop of `Scheduling.animate`: for each note compute the
rewards of all actuators, pick the first maximiser (`np.argmax`), fail when
the maximum reward is below the `-1e5` floor (the `ValueError`; an empty
actuator list likewise fails, where `np.argmax([])` raises), then record the
note in the chosen bucket and update that actuator's
`(last note ind, last start)` status.  Also tracks `min_reward`. -/
def scheduleLoop (dist : Nat → Nat → ℚ) :
    List Note → List (Option Nat × ℚ) → List (List Note) → ℚ →
    Except Unit (List (Option Nat × ℚ) × List (List Note) × ℚ)
  | [], status, buckets, minr => .ok (status, buckets, minr)
  | note :: rest, status, buckets, minr =>
    let rewards := status.map (rewardFor dist note)
    if rewards = [] then .error ()
    else
      let index := argmaxIdx rewards
      let rmax := maxList rewards
      if rmax < -100000 then .error ()
      else
        scheduleLoop dist rest (status.set index (some note.ind, note.start))
          (appendAt buckets index note) (min minr rmax)

/-- The scheduling phase of `Scheduling.animate`: run `scheduleLoop` from
the initial state (`status = [[None, -1]] * n`, empty buckets,
`min_reward = 1e6`) and return the per-actuator note lists together with the
diagnostic `min_reward`. -/
def Scheduling.animateSchedule (s : Scheduling) (midiNotes : List Note) :
    Except Unit (List (List Note) × ℚ) :=
  (scheduleLoop s.dist_f midiNotes (List.replicate s.nAct (none, -1))
      (List.replicate s.nAct []) 1000000).map (fun r => r.2)

/-- The scheduler status entry determined by a bucket: `(None, -1)` while the
bucket is empty, else the last assigned note's `ind` and `start`. -/
def lastStatus (b : List Note) : Option Nat × ℚ :=
  match b.getLast? with
  | none => (none, -1)
  | some l => (some l.ind, l.start)

/-- Adjacent-note order on starts (the spec's start-ascending relation). -/
def startLE (a b : Note) : Prop := a.start ≤ b.start

/-- Adjacent-note order on ends. -/
def endLE (a b : Note) : Prop := a.end_ ≤ b.end_

/-- Index `i` is the first index of the maximum of `l`: in range, its entry is an
upper bound of all entries, and every earlier entry is strictly smaller. -/
def isFirstMax (l : List ℚ) (i : Nat) : Prop :=
  i < l.length ∧ (∀ j, j < l.length → l.getD j 0 ≤ l.getD i 0) ∧
    ∀ j, j < i → l.getD j 0 < l.getD i 0

/-- Modelled from the spec: insert a pitch into a sorted duplicate-free list
(used to build the spec's stable ascending ordering of `pitches_used`; the
source's `Midi.notes_used` returns an unordered set and the revision of
`Midi` consumed by `Scheduling` is not part of the sources here). -/
def insertSortedNoDup (x : Nat) : List Nat → List Nat
  | [] => [x]
  | y :: ys =>
    if x < y then x :: y :: ys
    else if x = y then y :: ys
    else y :: insertSortedNoDup x ys

/-- Modelled from the spec: "the sorted list of distinct pitches in
`sequence`", ascending. -/
def pitchesUsedSorted (seq : List Note) : List Nat :=
  seq.foldr (fun n acc => insertSortedNoDup n.note acc) []

/-- First index of a pitch in a pitch list (length of the list if absent). -/
def idxOf (p : Nat) : List Nat → Nat
  | [] => 0
  | q :: qs => if q = p then 0 else idxOf p qs + 1

/-- Modelled from the spec: "each pitch can be mapped to a *pitch index*",
its position in the sorted list of distinct pitches of the sequence. -/
def pitchIndex (seq : List Note) (p : Nat) : Nat :=
  idxOf p (pitchesUsedSorted seq)

/-- Modelled from the spec: the reward formula of §4.3, with `distance_fn`
applied to the *pitch indices* of the current note and of the actuator's
last pitch. -/
def rewardSpec (dist : Nat → Nat → ℚ) (seq : List Note) (note : Note)
    (lastPitch : Nat) (lastStart : ℚ) : ℚ :=
  (note.start - lastStart) - dist (pitchIndex seq note.note) (pitchIndex seq lastPitch)

/-- The spec's concrete scenario stream (§8): `[note_on(60, vel=100, Δt=0),
note_off(60, Δt=4), note_on(62, vel=80, Δt=1), note_off(62, Δt=4)]`. -/
def ex4 : List Msg :=
  [⟨.note_on, 60, 100, 0⟩, ⟨.note_off, 60, 0, 4⟩,
   ⟨.note_on, 62, 80, 1⟩, ⟨.note_off, 62, 0, 4⟩]

/-- A two-event stream: one note of pitch 60 lasting 4 seconds. -/
def ex7 : List Msg :=
  [⟨.note_on, 60, 100, 0⟩, ⟨.note_off, 60, 0, 4⟩]

/-- A well-formed, time-monotonic stream with two overlapping notes: 60 is
opened first and closed last, 62 is nested inside it. -/
def exOverlap : List Msg :=
  [⟨.note_on, 60, 100, 0⟩, ⟨.note_on, 62, 80, 1⟩,
   ⟨.note_off, 62, 0, 1⟩, ⟨.note_off, 60, 0, 1⟩]

/-- A one-actuator scheduler with the default linear distance. -/
def sched1 : Scheduling := ⟨1, 1/10, DIST_LINEAR, 3, 3/10, false⟩

/-- A two-actuator scheduler with the default linear distance. -/
def sched2 : Scheduling := ⟨2, 1/10, DIST_LINEAR, 3, 3/10, false⟩

/-- A note of pitch 60 at frame 0 (track index 0). -/
def cn0 : Note := ⟨60, 100, 0, 10, 0⟩

/-- A note of pitch 61 also starting at frame 0 (track index 1). -/
def cn1 : Note := ⟨61, 100, 0, 10, 1⟩

/-- A note of pitch 61 starting 2000000 frames in (track index 1). -/
def bn1 : Note := ⟨61, 100, 2000000, 2000010, 1⟩

/-- A note of pitch 60 at frame 0 (track index 0). -/
def mn0 : Note := ⟨60, 100, 0, 5, 0⟩

/-- A second note of the same pitch 60 at frame 10 (track index 1). -/
def mn1 : Note := ⟨60, 100, 10, 15, 1⟩

/-- A one-actuator scheduler whose distance function is huge everywhere. -/
def schedBig : Scheduling := ⟨1, 1/10, fun _ _ => 200000, 3, 3/10, false⟩

/-- C4: the claim is false: with the spec's event stream at fps 24, the
default offset (`None`) makes parsing fail with a type error, and even with
offset 0 the second note is `{62, start 120, end 216}` — not the claimed
`{62, start 24, end 120}` (the stream's Δt accumulate, so `note_on(62, Δt=1)`
happens 1 second after `note_off(60)` at 4 s, i.e. at frame 120). -/
theorem C4_counterexample :
    Midi.init ex4 24 none = .error () ∧
    Midi.init ex4 24 (some 0) =
      .ok [⟨60, 100, 0, 96, 0⟩, ⟨62, 80, 120, 216, 1⟩] ∧
    Midi.init ex4 24 (some 0) ≠
      .ok [⟨60, 100, 0, 96, 0⟩, ⟨62, 80, 24, 120, 1⟩] := by
  refine ⟨by norm_num [Midi.init, initLoop, ex4], by norm_num [Midi.init, initLoop, ex4], ?_⟩
  norm_num [Midi.init, initLoop, ex4]

/-- C4 (amended): parsing the spec's stream at fps 24 requires an explicit
offset (the default `None` raises); with offset 0 it yields exactly the two
notes `{pitch 60, start 0, end 96}` and `{pitch 62, start 120, end 216}`. -/
theorem C4_amended :
    Midi.init ex4 24 (some 0) =
      .ok [⟨60, 100, 0, 96, 0⟩, ⟨62, 80, 120, 216, 1⟩] ∧
    Midi.init ex4 24 none = .error () := by
  constructor <;> norm_num [Midi.init, initLoop, ex4]

/-- C7: calling the parser without an offset does not behave as offset 0:
the source's default is `None`, and `starts[note] + None` raises a
`TypeError` as soon as the first note is emitted, while the same stream with
offset 0 parses to one note. -/
theorem C7_code_bug_eval :
    Midi.init ex7 24 none = .error () ∧
    Midi.init ex7 24 (some 0) = .ok [⟨60, 100, 0, 96, 0⟩] := by
  constructor <;> norm_num [Midi.init, initLoop, ex7]

/-- Unfolding `maxList` on a cons with a nonempty tail. -/
theorem maxList_cons (x : ℚ) (l : List ℚ) (h : l ≠ []) :
    maxList (x :: l) = max x (maxList l) := by
  cases l with
  | nil => exact absurd rfl h
  | cons y ys => rfl

/-- Unfolding `argmaxIdx` on a cons with a nonempty tail. -/
theorem argmaxIdx_cons (x : ℚ) (l : List ℚ) (h : l ≠ []) :
    argmaxIdx (x :: l) = if maxList l ≤ x then 0 else argmaxIdx l + 1 := by
  cases l with
  | nil => exact absurd rfl h
  | cons y ys => rfl

/-- Every entry of a list is at most `maxList`. -/
theorem le_maxList (l : List ℚ) (j : Nat) (hj : j < l.length) :
    l.getD j 0 ≤ maxList l := by
  induction l generalizing j with
  | nil => simp at hj
  | cons x xs ih =>
    cases xs with
    | nil =>
      have hj0 : j = 0 := by simpa using hj
      subst hj0
      simp [maxList]
    | cons y ys =>
      rw [maxList_cons x (y :: ys) (by simp)]
      cases j with
      | zero => simpa using le_max_left x (maxList (y :: ys))
      | succ j =>
        have h1 := ih j (by simpa using hj)
        simp only [List.getD_cons_succ]
        exact le_trans h1 (le_max_right _ _)

/-- The entry at `argmaxIdx` is the maximum. -/
theorem getD_argmaxIdx (l : List ℚ) (h : l ≠ []) :
    l.getD (argmaxIdx l) 0 = maxList l := by
  induction l with
  | nil => exact absurd rfl h
  | cons x xs ih =>
    cases xs with
    | nil => simp [argmaxIdx, maxList]
    | cons y ys =>
      rw [argmaxIdx_cons x (y :: ys) (by simp), maxList_cons x (y :: ys) (by simp)]
      by_cases hc : maxList (y :: ys) ≤ x
      · rw [if_pos hc]
        simp [max_eq_left hc]
      · rw [if_neg hc]
        simp only [List.getD_cons_succ]
        rw [ih (by simp)]
        exact (max_eq_right (le_of_not_le hc)).symm

/-- Every entry strictly before `argmaxIdx` is strictly below the maximum:
`np.argmax` returns the first maximiser. -/
theorem lt_maxList_of_lt_argmaxIdx (l : List ℚ) (j : Nat) (hj : j < argmaxIdx l) :
    l.getD j 0 < maxList l := by
  induction l generalizing j with
  | nil => simp [argmaxIdx] at hj
  | cons x xs ih =>
    cases xs with
    | nil => simp [argmaxIdx] at hj
    | cons y ys =>
      rw [argmaxIdx_cons x (y :: ys) (by simp)] at hj
      by_cases hc : maxList (y :: ys) ≤ x
      · rw [if_pos hc] at hj
        simp at hj
      · rw [if_neg hc] at hj
        rw [maxList_cons x (y :: ys) (by simp), max_eq_right (le_of_not_le hc)]
        cases j with
        | zero => simpa using lt_of_not_le hc
        | succ j =>
          have h1 := ih j (by omega)
          simpa using h1

/-- The `argmaxIdx` of a nonempty list is in range. -/
theorem argmaxIdx_lt_length (l : List ℚ) (h : l ≠ []) : argmaxIdx l < l.length := by
  induction l with
  | nil => exact absurd rfl h
  | cons x xs ih =>
    cases xs with
    | nil => simp [argmaxIdx]
    | cons y ys =>
      rw [argmaxIdx_cons x (y :: ys) (by simp)]
      by_cases hc : maxList (y :: ys) ≤ x
      · rw [if_pos hc]
        simp
      · rw [if_neg hc]
        have h1 := ih (by simp)
        simpa [Nat.succ_lt_succ_iff] using h1

/-- The `maxList` of a nonempty list is at most any upper bound of its entries. -/
theorem maxList_le (l : List ℚ) (v : ℚ) (h : l ≠ []) (hub : ∀ y ∈ l, y ≤ v) :
    maxList l ≤ v := by
  induction l with
  | nil => exact absurd rfl h
  | cons x xs ih =>
    cases xs with
    | nil => simpa [maxList] using hub x (by simp)
    | cons y ys =>
      rw [maxList_cons x (y :: ys) (by simp)]
      exact max_le (hub x (by simp)) (ih (by simp) (fun z hz => hub z (by simp [hz])))

/-- The `maxList` of a list whose `xs` part is strictly below `v` and whose `ys`
part is at most `v` is exactly `v`. -/
theorem maxList_concat (xs : List ℚ) (v : ℚ) (ys : List ℚ)
    (hx : ∀ x ∈ xs, x < v) (hy : ∀ y ∈ ys, y ≤ v) :
    maxList (xs ++ v :: ys) = v := by
  induction xs with
  | nil =>
    simp only [List.nil_append]
    cases ys with
    | nil => rfl
    | cons z zs =>
      rw [maxList_cons v (z :: zs) (by simp)]
      exact max_eq_left (maxList_le (z :: zs) v (by simp) hy)
  | cons x xs ih =>
    rw [List.cons_append, maxList_cons x (xs ++ v :: ys) (by simp),
      ih (fun z hz => hx z (List.mem_cons_of_mem x hz))]
    exact max_eq_right (le_of_lt (hx x (List.mem_cons_self x xs)))

/-- When every entry before position `xs.length` is strictly below `v` and
every entry after is at most `v`, the first maximiser is at `xs.length`. -/
theorem argmaxIdx_concat (xs : List ℚ) (v : ℚ) (ys : List ℚ)
    (hx : ∀ x ∈ xs, x < v) (hy : ∀ y ∈ ys, y ≤ v) :
    argmaxIdx (xs ++ v :: ys) = xs.length := by
  induction xs with
  | nil =>
    simp only [List.nil_append, List.length_nil]
    cases ys with
    | nil => rfl
    | cons z zs =>
      rw [argmaxIdx_cons v (z :: zs) (by simp),
        if_pos (maxList_le (z :: zs) v (by simp) hy)]
  | cons x xs ih =>
    rw [List.cons_append, argmaxIdx_cons x (xs ++ v :: ys) (by simp),
      maxList_concat xs v ys (fun z hz => hx z (List.mem_cons_of_mem x hz)) hy,
      if_neg (not_le.mpr (hx x (List.mem_cons_self x xs))),
      ih (fun z hz => hx z (List.mem_cons_of_mem x hz))]
    simp

/-- The map `appendAt` preserves the number of buckets. -/
theorem appendAt_length (l : List (List Note)) (k : Nat) (n : Note) :
    (appendAt l k n).length = l.length := by
  induction l generalizing k with
  | nil => rfl
  | cons b bs ih =>
    cases k with
    | zero => simp [appendAt]
    | succ k => simp [appendAt, ih]

/-- A bucket of `appendAt l k n` is a bucket of `l`, possibly with `n`
appended. -/
theorem mem_appendAt (l : List (List Note)) (k : Nat) (n : Note) (b' : List Note)
    (h : b' ∈ appendAt l k n) : b' ∈ l ∨ ∃ b, b ∈ l ∧ b' = b ++ [n] := by
  induction l generalizing k with
  | nil => simp [appendAt] at h
  | cons b bs ih =>
    cases k with
    | zero =>
      simp only [appendAt, List.mem_cons] at h
      rcases h with h | h
      · exact Or.inr ⟨b, by simp, h⟩
      · exact Or.inl (by simp [h])
    | succ k =>
      simp only [appendAt, List.mem_cons] at h
      rcases h with h | h
      · exact Or.inl (by simp [h])
      · rcases ih k h with h1 | ⟨c, hc, hb⟩
        · exact Or.inl (by simp [h1])
        · exact Or.inr ⟨c, by simp [hc], hb⟩

/-- Appending a note into an in-range bucket permutes the flattened buckets
by appending that note. -/
theorem join_appendAt_perm (l : List (List Note)) (k : Nat) (n : Note)
    (hk : k < l.length) : (appendAt l k n).flatten.Perm (l.flatten ++ [n]) := by
  induction l generalizing k with
  | nil => simp at hk
  | cons b bs ih =>
    cases k with
    | zero =>
      simp only [appendAt, List.flatten_cons]
      have h0 : (b ++ [n]) ++ bs.flatten = b ++ ([n] ++ bs.flatten) := by
        simp [List.append_assoc]
      have h2 : b ++ bs.flatten ++ [n] = b ++ (bs.flatten ++ [n]) := by
        simp [List.append_assoc]
      rw [h0, h2]
      exact List.Perm.append_left b List.perm_append_comm
    | succ k =>
      simp only [appendAt, List.flatten_cons]
      have h1 := ih k (by simpa using hk)
      have h2 : b ++ bs.flatten ++ [n] = b ++ (bs.flatten ++ [n]) := by
        simp [List.append_assoc]
      rw [h2]
      exact List.Perm.append_left b h1

/-- Recording a note in bucket `k` updates the per-bucket `lastStatus` map
exactly as the scheduler updates its `status` list. -/
theorem map_lastStatus_appendAt (l : List (List Note)) (k : Nat) (n : Note) :
    (appendAt l k n).map lastStatus = (l.map lastStatus).set k (some n.ind, n.start) := by
  induction l generalizing k with
  | nil => cases k <;> rfl
  | cons b bs ih =>
    cases k with
    | zero => simp [appendAt, lastStatus, List.getLast?_concat]
    | succ k => simp [appendAt, ih]

/-- Setting via `List.set` at the length of the left part of an append. -/
theorem set_append_length {α : Type} (xs : List α) (y : α) (ys : List α) (v : α) :
    (xs ++ y :: ys).set xs.length v = xs ++ v :: ys := by
  induction xs with
  | nil => rfl
  | cons x xs ih => simp [ih]

/-- Applying `appendAt` at the length of the left part of an append. -/
theorem appendAt_append_length (xs : List (List Note)) (y : List Note)
    (ys : List (List Note)) (n : Note) :
    appendAt (xs ++ y :: ys) xs.length n = xs ++ (y ++ [n]) :: ys := by
  induction xs with
  | nil => rfl
  | cons x xs ih => simp [appendAt, ih]

/-- Flattening replicated empty buckets gives the empty list. -/
theorem join_replicate_nil (n : Nat) :
    (List.replicate n ([] : List Note)).flatten = [] := by
  induction n with
  | zero => rfl
  | succ n ih => simp [List.replicate_succ, ih]

/-- C1: the claim is false: `exOverlap` is time-monotonic (all Δt ≥ 0) and
well-formed (60 and 62 are opened before being closed), yet the parsed
sequence is `[{62, start 1}, {60, start 0}]` — adjacent notes with
descending starts, because notes are emitted in note-off order. -/
theorem C1_counterexample :
    List.Forall (fun m => 0 ≤ m.time) exOverlap ∧
    Midi.init exOverlap 1 (some 0) =
      .ok [⟨62, 80, 1, 2, 0⟩, ⟨60, 100, 0, 3, 1⟩] ∧
    ¬ List.Pairwise startLE [(⟨62, 80, 1, 2, 0⟩ : Note), ⟨60, 100, 0, 3, 1⟩] := by
  refine ⟨by norm_num [exOverlap, List.Forall], by norm_num [Midi.init, initLoop, exOverlap], ?_⟩
  intro h
  have h1 := List.rel_of_pairwise_cons h (List.mem_singleton.mpr rfl)
  simp only [startLE] at h1
  norm_num at h1

/-- C2: the claim is false: with one actuator and two notes at the same
start whose distance is nonzero (1, under the default linear distance, both
on track indices and on pitches), scheduling does not raise — the second
note's reward is −1, far above the `-1e5` floor, and the run returns both
notes on the single actuator. -/
theorem C2_counterexample :
    sched1.nAct = 1 ∧ cn0.start = cn1.start ∧
    sched1.dist_f cn1.ind cn0.ind = 1 ∧ DIST_LINEAR cn1.note cn0.note = 1 ∧
    sched1.animateSchedule [cn0, cn1] = .ok ([[cn0, cn1]], -1) := by
  refine ⟨rfl, rfl, by norm_num [sched1, cn0, cn1, DIST_LINEAR], by norm_num [cn0, cn1, DIST_LINEAR], ?_⟩
  norm_num [Scheduling.animateSchedule, scheduleLoop, rewardFor, argmaxIdx,
    maxList, appendAt, sched1, cn0, cn1, DIST_LINEAR, List.replicate, Except.map]

/-- C3: the claim is false: for the two same-pitch notes `mn0`, `mn1`
(pitch 60, track indices 0 and 1, starts 0 and 10) on one actuator, the
scheduler computes reward 9 = (10 − 0) − dist(1, 0) for the second note —
`dist_f` is applied to the notes' track indices — while the spec's formula
with pitch indices gives 10 = (10 − 0) − dist(0, 0), since both notes map
to pitch index 0.  The run's reported `min_reward` is accordingly 9. -/
theorem C3_counterexample :
    scheduleLoop sched1.dist_f [mn0, mn1] (List.replicate 1 (none, -1))
        (List.replicate 1 []) 1000000 = .ok ([(some 1, 10)], [[mn0, mn1]], 9) ∧
    rewardFor sched1.dist_f mn1 (some mn0.ind, mn0.start) = 9 ∧
    rewardSpec sched1.dist_f [mn0, mn1] mn1 mn0.note mn0.start = 10 ∧
    (9 : ℚ) ≠ 10 := by
  refine ⟨?_, ?_, ?_, by norm_num⟩
  · norm_num [scheduleLoop, rewardFor, argmaxIdx, maxList, appendAt,
      sched1, mn0, mn1, DIST_LINEAR, List.replicate]
  · norm_num [rewardFor, sched1, mn0, mn1, DIST_LINEAR]
  · norm_num [rewardSpec, pitchIndex, pitchesUsedSorted, insertSortedNoDup,
      idxOf, sched1, mn0, mn1, DIST_LINEAR]

/-- C5: the claim is false: with two actuators and two notes, if the second
note starts 2000000 frames after the first, the already-assigned actuator 0
has reward 1999999, which beats the idle sentinel 1000000 of actuator 1, so
both notes land on actuator 0 and the second actuator is never used. -/
theorem C5_counterexample :
    sched2.nAct = 2 ∧
    sched2.animateSchedule [cn0, bn1] = .ok ([[cn0, bn1], []], 1000000) ∧
    ¬ [[cn0, bn1], ([] : List Note)] = [cn0, bn1].map (fun n => [n]) := by
  refine ⟨rfl, ?_, by simp⟩
  norm_num [Scheduling.animateSchedule, scheduleLoop, rewardFor, argmaxIdx,
    maxList, appendAt, sched2, cn0, bn1, DIST_LINEAR, List.replicate, Except.map]
  simp

/-- C10 (confirmed): the scheduling outcome — buckets, `min_reward` and
success or failure — is unchanged by the `no_overlap` flag, which
`Scheduling.__init__` stores but the scheduling loop never reads. -/
theorem C10_no_overlap_independent (s : Scheduling) (b : Bool) (seq : List Note) :
    Scheduling.animateSchedule ⟨s.nAct, s.idle_time, s.dist_f, s.depth, s.reward_decay, b⟩ seq
      = s.animateSchedule seq := rfl

/-- C8 (confirmed): for any note and any nonempty actuator status list, the
index the scheduler selects — `argmaxIdx` of the reward list — is the first
(lowest) index attaining the maximum reward: its reward is an upper bound of
all rewards and every lower-indexed actuator has a strictly smaller reward;
and the whole schedule is a pure function of its input, so repeated runs on
identical input are identical. -/
theorem C8_tie_break (s : Scheduling) (note : Note)
    (status : List (Option Nat × ℚ)) (h : status ≠ []) (seq : List Note) :
    isFirstMax (status.map (rewardFor s.dist_f note))
      (argmaxIdx (status.map (rewardFor s.dist_f note))) ∧
    s.animateSchedule seq = s.animateSchedule seq := by
  have hne : status.map (rewardFor s.dist_f note) ≠ [] := by
    simpa using h
  refine ⟨⟨argmaxIdx_lt_length _ hne, ?_, ?_⟩, rfl⟩
  · intro j hj
    rw [getD_argmaxIdx _ hne]
    exact le_maxList _ j hj
  · intro j hj
    rw [getD_argmaxIdx _ hne]
    exact lt_maxList_of_lt_argmaxIdx _ j hj

/-- Witness for C8 at a concrete status list. -/
theorem C8_tie_break_witness :
    isFirstMax ([((some 0 : Option Nat), (0 : ℚ))].map (rewardFor sched1.dist_f mn1))
      (argmaxIdx ([((some 0 : Option Nat), (0 : ℚ))].map (rewardFor sched1.dist_f mn1))) ∧
    sched1.animateSchedule [] = sched1.animateSchedule [] :=
  C8_tie_break sched1 mn1 [((some 0 : Option Nat), (0 : ℚ))] (by simp) []

/-- C9 (confirmed): for a note stored at position `p` of its sequence (so
`ind = p`), `next` returns the entry at `p + 1` — `none` past the end — and
`prev` the entry at `p - 1` — `none` at `p = 0`; boundaries yield the `none`
sentinel, never a failure. -/
theorem C9_next_prev (notes : List Note) (p : Nat) (n : Note)
    (hget : notes.get? p = some n) (hind : n.ind = p) :
    Note.next notes n = notes.get? (p + 1) ∧
    (notes.length ≤ p + 1 → Note.next notes n = none) ∧
    Note.prev notes n = (if p = 0 then none else notes.get? (p - 1)) ∧
    (p = 0 → Note.prev notes n = none) := by
  subst hind
  refine ⟨?_, ?_, ?_, ?_⟩
  · unfold Note.next
    by_cases hc : notes.length ≤ n.ind + 1
    · rw [if_pos hc]
      exact (List.get?_eq_none.mpr hc).symm
    · rw [if_neg hc]
  · intro hc
    unfold Note.next
    rw [if_pos hc]
  · cases hni : n.ind with
    | zero => simp [Note.prev, hni]
    | succ k => simp [Note.prev, hni]
  · intro h0
    simp [Note.prev, h0]

/-- Witness for C9 at a concrete two-note sequence. -/
theorem C9_next_prev_witness :
    Note.next [mn0, mn1] mn0 = [mn0, mn1].get? (0 + 1) ∧
    ([mn0, mn1].length ≤ 0 + 1 → Note.next [mn0, mn1] mn0 = none) ∧
    Note.prev [mn0, mn1] mn0 = (if 0 = 0 then none else [mn0, mn1].get? (0 - 1)) ∧
    (0 = 0 → Note.prev [mn0, mn1] mn0 = none) :=
  C9_next_prev [mn0, mn1] 0 mn0 rfl rfl

/-- C2 (amended): with one actuator and two notes at identical starts, the
scheduler raises the fatal error exactly when the distance between the two
notes (applied to their track indices) exceeds the floor magnitude `1e5` —
a merely nonzero distance (e.g. the default linear distance) yields reward
`-distance`, which is above the `-1e5` floor, and scheduling succeeds. -/
theorem C2_amended (s : Scheduling) (n0 n1 : Note) (hn : s.nAct = 1)
    (hstart : n1.start = n0.start) :
    (s.animateSchedule [n0, n1] = .error ()) ↔
      100000 < s.dist_f n1.ind n0.ind := by
  unfold Scheduling.animateSchedule
  rw [hn]
  simp only [List.replicate_one, scheduleLoop, rewardFor, List.map_cons,
    List.map_nil, argmaxIdx, maxList, appendAt, List.set, hstart]
  norm_num
  by_cases hd : (100000 : ℚ) < s.dist_f n1.ind n0.ind
  · simp [hd, Except.map]
  · simp [hd, Except.map]

/-- Witness for C2 (amended): with a distance of 200000 > 1e5 the run
raises. -/
theorem C2_amended_witness :
    (schedBig.animateSchedule [cn0, cn1] = .error ()) ↔
      100000 < schedBig.dist_f cn1.ind cn0.ind :=
  C2_amended schedBig cn0 cn1 rfl rfl

/-- Run invariant: the scheduler status list is exactly the per-bucket
`lastStatus` map — each actuator's recorded `(ind, start)` pair is that of
the last note appended to its bucket. -/
theorem scheduleLoop_lastStatus (dist : Nat → Nat → ℚ) (notes : List Note) :
    ∀ (status : List (Option Nat × ℚ)) (buckets : List (List Note)) (minr : ℚ)
      (res : List (Option Nat × ℚ) × List (List Note) × ℚ),
    status = buckets.map lastStatus →
    scheduleLoop dist notes status buckets minr = .ok res →
    res.1 = res.2.1.map lastStatus := by
  induction notes with
  | nil =>
    intro status buckets minr res hinv hrun
    simp only [scheduleLoop, Except.ok.injEq] at hrun
    rw [← hrun]
    exact hinv
  | cons note rest ih =>
    intro status buckets minr res hinv hrun
    simp only [scheduleLoop] at hrun
    by_cases h1 : status.map (rewardFor dist note) = []
    · rw [if_pos h1] at hrun
      simp at hrun
    · rw [if_neg h1] at hrun
      by_cases h2 : maxList (status.map (rewardFor dist note)) < -100000
      · rw [if_pos h2] at hrun
        simp at hrun
      · rw [if_neg h2] at hrun
        refine ih _ _ _ _ ?_ hrun
        rw [hinv, map_lastStatus_appendAt]

/-- C3 (amended): the reward the scheduler computes for a note on a
previously-assigned actuator `i` is
`(note.start − last_start[i]) − dist_f(note.ind, last_ind[i])`, where
`last_ind[i]`/`last_start[i]` are the track index (position in the original
input sequence) and start of the last note assigned to actuator `i` — the
distance argument is the note's sequence position, not a pitch index. -/
theorem C3_amended (s : Scheduling) (pref : List Note)
    (status : List (Option Nat × ℚ)) (buckets : List (List Note)) (minr : ℚ)
    (note : Note) (i : Nat) (b : List Note) (lastn : Note)
    (hrun : scheduleLoop s.dist_f pref (List.replicate s.nAct (none, -1))
        (List.replicate s.nAct []) 1000000 = .ok (status, buckets, minr))
    (hb : buckets.get? i = some b) (hl : b.getLast? = some lastn) :
    status.get? i = some (some lastn.ind, lastn.start) ∧
    rewardFor s.dist_f note (some lastn.ind, lastn.start) =
      (note.start - lastn.start) - s.dist_f note.ind lastn.ind := by
  have hinv : List.replicate s.nAct ((none : Option Nat), (-1 : ℚ)) =
      (List.replicate s.nAct ([] : List Note)).map lastStatus := by
    simp [List.map_replicate, lastStatus]
  have h1 := scheduleLoop_lastStatus s.dist_f pref _ _ _
    (status, buckets, minr) hinv hrun
  refine ⟨?_, rfl⟩
  simp only at h1
  rw [h1, List.get?_map, hb]
  simp [lastStatus, hl]

/-- Witness for C3 (amended): after scheduling `[mn0]` on one actuator, the
status of actuator 0 is `(some mn0.ind, mn0.start)` and the reward for `mn1`
is given by the track-index formula. -/
theorem C3_amended_witness :
    ([((some 0 : Option Nat), (0 : ℚ))].get? 0 = some (some mn0.ind, mn0.start)) ∧
    rewardFor sched1.dist_f mn1 (some mn0.ind, mn0.start) =
      (mn1.start - mn0.start) - sched1.dist_f mn1.ind mn0.ind := by
  have h := C3_amended sched1 [mn0] [((some 0 : Option Nat), (0 : ℚ))] [[mn0]]
    1000000 mn1 0 [mn0] mn0
    (by norm_num [scheduleLoop, rewardFor, argmaxIdx, maxList, appendAt,
      sched1, mn0, List.replicate])
    rfl rfl
  simpa [mn0] using h

/-- Parsing invariant: with nonnegative fps and time deltas, every emitted
note closes at the current frame, and the frame accumulator never decreases,
so the emitted notes are ascending in their end frames. -/
theorem initLoop_end_ascending (fps off : ℚ) (hfps : 0 ≤ fps) :
    ∀ (msgs : List Msg) (starts : Nat → ℚ) (vels : Nat → Nat) (frame : ℚ)
      (started : Bool) (notes ns : List Note),
    (∀ m ∈ msgs, 0 ≤ m.time) →
    notes.Pairwise endLE →
    (∀ n ∈ notes, n.end_ ≤ frame + off) →
    initLoop fps (some off) msgs starts vels frame started notes = .ok ns →
    ns.Pairwise endLE := by
  intro msgs
  induction msgs with
  | nil =>
    intro starts vels frame started notes ns ht hpw hub hrun
    simp only [initLoop, Except.ok.injEq] at hrun
    rw [← hrun]
    exact hpw
  | cons msg rest ih =>
    intro starts vels frame started notes ns ht hpw hub hrun
    obtain ⟨mtype, mnote, mvel, mtime⟩ := msg
    have htr : ∀ m ∈ rest, 0 ≤ m.time := fun m hm => ht m (List.mem_cons_of_mem _ hm)
    have htime : (0 : ℚ) ≤ mtime := by
      have h0 := ht ⟨mtype, mnote, mvel, mtime⟩ (by simp)
      simpa using h0
    set frame2 := (if started then frame + mtime * fps else frame) with hf2
    have hmono : frame ≤ frame2 := by
      rw [hf2]
      by_cases hs : started
      · simp only [if_pos hs]
        nlinarith [mul_nonneg htime hfps]
      · simp [hs]
    have hub2 : ∀ n ∈ notes, n.end_ ≤ frame2 + off := fun n hn =>
      le_trans (hub n hn) (by linarith)
    cases mtype with
    | other =>
      simp only [initLoop] at hrun
      rw [← hf2] at hrun
      exact ih starts vels frame2 started notes ns htr hpw hub2 hrun
    | note_on =>
      simp only [initLoop] at hrun
      rw [← hf2] at hrun
      by_cases hbig : 1000 ≤ mnote
      · rw [if_pos hbig] at hrun
        simp at hrun
      · rw [if_neg hbig] at hrun
        simp only [reduceIte] at hrun
        by_cases hv : mvel = 0
        · rw [if_pos hv] at hrun
          refine ih starts vels frame2 true _ ns htr ?_ ?_ hrun
          · refine List.pairwise_append.mpr ⟨hpw, List.pairwise_singleton _ _, ?_⟩
            intro a ha b hb
            simp only [List.mem_singleton] at hb
            subst hb
            exact hub2 a ha
          · intro n hn
            rcases List.mem_append.mp hn with h | h
            · exact hub2 n h
            · simp only [List.mem_singleton] at h
              subst h
              exact le_refl _
        · rw [if_neg hv] at hrun
          exact ih _ _ frame2 true notes ns htr hpw hub2 hrun
    | note_off =>
      simp only [initLoop] at hrun
      rw [← hf2] at hrun
      by_cases hbig : 1000 ≤ mnote
      · rw [if_pos hbig] at hrun
        simp at hrun
      · rw [if_neg hbig] at hrun
        refine ih starts vels frame2 true _ ns htr ?_ ?_ hrun
        · refine List.pairwise_append.mpr ⟨hpw, List.pairwise_singleton _ _, ?_⟩
          intro a ha b hb
          simp only [List.mem_singleton] at hb
          subst hb
          exact hub2 a ha
        · intro n hn
          rcases List.mem_append.mp hn with h | h
          · exact hub2 n h
          · simp only [List.mem_singleton] at h
            subst h
            exact le_refl _

/-- C1 (amended): for every time-monotonic event stream (all Δt ≥ 0, fps ≥ 0)
that parses successfully, the resulting Note Sequence is ascending in note
*end* frames — notes are emitted in note-off order — but not necessarily in
start frames (overlapping notes break start-ascending; see the
counterexample). -/
theorem C1_amended (msgs : List Msg) (fps off : ℚ) (ns : List Note)
    (hfps : 0 ≤ fps) (ht : ∀ m ∈ msgs, 0 ≤ m.time)
    (hrun : Midi.init msgs fps (some off) = .ok ns) :
    ns.Pairwise endLE :=
  initLoop_end_ascending fps off hfps msgs _ _ _ _ [] ns ht List.Pairwise.nil
    (by simp) hrun

/-- Witness for C1 (amended) on the overlapping stream: the parsed notes are
end-ascending. -/
theorem C1_amended_witness :
    List.Pairwise endLE [(⟨62, 80, 1, 2, 0⟩ : Note), ⟨60, 100, 0, 3, 1⟩] :=
  C1_amended exOverlap 1 0 [⟨62, 80, 1, 2, 0⟩, ⟨60, 100, 0, 3, 1⟩]
    (by norm_num)
    (by intro m hm
        simp only [exOverlap, List.mem_cons, List.not_mem_nil, or_false] at hm
        rcases hm with rfl | rfl | rfl | rfl <;> norm_num)
    (by norm_num [Midi.init, initLoop, exOverlap])

/-- Run invariant for conservation: buckets collect exactly the processed
notes, and when the pending notes are start-ascending and dominate every
bucket entry, each bucket stays start-ascending. -/
theorem scheduleLoop_conserve (dist : Nat → Nat → ℚ) :
    ∀ (rest : List Note) (status : List (Option Nat × ℚ))
      (buckets : List (List Note)) (minr : ℚ)
      (res : List (Option Nat × ℚ) × List (List Note) × ℚ),
    status.length = buckets.length →
    rest.Pairwise startLE →
    (∀ b ∈ buckets, b.Pairwise startLE) →
    (∀ b ∈ buckets, ∀ n ∈ b, ∀ m ∈ rest, startLE n m) →
    scheduleLoop dist rest status buckets minr = .ok res →
    res.2.1.flatten.Perm (buckets.flatten ++ rest) ∧
      ∀ b ∈ res.2.1, b.Pairwise startLE := by
  intro rest
  induction rest with
  | nil =>
    intro status buckets minr res hlen hsort hpw hcross hrun
    simp only [scheduleLoop, Except.ok.injEq] at hrun
    rw [← hrun]
    exact ⟨by simp, hpw⟩
  | cons note rest ih =>
    intro status buckets minr res hlen hsort hpw hcross hrun
    simp only [scheduleLoop] at hrun
    by_cases h1 : status.map (rewardFor dist note) = []
    · rw [if_pos h1] at hrun
      simp at hrun
    · rw [if_neg h1] at hrun
      by_cases h2 : maxList (status.map (rewardFor dist note)) < -100000
      · rw [if_pos h2] at hrun
        simp at hrun
      · rw [if_neg h2] at hrun
        have hk : argmaxIdx (status.map (rewardFor dist note)) < buckets.length := by
          have h3 := argmaxIdx_lt_length _ h1
          rw [List.length_map] at h3
          rw [← hlen]
          exact h3
        obtain ⟨hsort1, hsort2⟩ := List.pairwise_cons.mp hsort
        have hpw3 : ∀ b ∈ appendAt buckets
            (argmaxIdx (status.map (rewardFor dist note))) note,
            b.Pairwise startLE := by
          intro b hb
          rcases mem_appendAt _ _ _ _ hb with h | ⟨c, hc, rfl⟩
          · exact hpw b h
          · refine List.pairwise_append.mpr ⟨hpw c hc, List.pairwise_singleton _ _, ?_⟩
            intro a ha b2 hb2
            simp only [List.mem_singleton] at hb2
            rw [hb2]
            exact hcross c hc a ha note (List.mem_cons_self _ _)
        have hcross3 : ∀ b ∈ appendAt buckets
            (argmaxIdx (status.map (rewardFor dist note))) note,
            ∀ n ∈ b, ∀ m ∈ rest, startLE n m := by
          intro b hb n hn m hm
          rcases mem_appendAt _ _ _ _ hb with h | ⟨c, hc, rfl⟩
          · exact hcross b h n hn m (List.mem_cons_of_mem _ hm)
          · rcases List.mem_append.mp hn with h | h
            · exact hcross c hc n h m (List.mem_cons_of_mem _ hm)
            · simp only [List.mem_singleton] at h
              rw [h]
              exact hsort1 m hm
        have hnext := ih (status.set (argmaxIdx (status.map (rewardFor dist note)))
            (some note.ind, note.start))
          (appendAt buckets (argmaxIdx (status.map (rewardFor dist note))) note)
          (min minr (maxList (status.map (rewardFor dist note)))) res
          (by rw [List.length_set, appendAt_length]; exact hlen)
          hsort2 hpw3 hcross3 hrun
        obtain ⟨hperm, hpw2⟩ := hnext
        refine ⟨?_, hpw2⟩
        refine hperm.trans ?_
        have hj := join_appendAt_perm buckets
          (argmaxIdx (status.map (rewardFor dist note))) note hk
        have h5 := hj.append_right rest
        refine h5.trans ?_
        rw [List.append_assoc, List.singleton_append]

/-- C6 (confirmed): on a start-ascending input on which scheduling succeeds,
the flattened per-actuator buckets are a permutation of the input — every
note appears in exactly one bucket, none is lost or duplicated — and each
bucket is itself start-ascending. -/
theorem C6_conservation (s : Scheduling) (seq : List Note)
    (buckets : List (List Note)) (minr : ℚ)
    (hsorted : seq.Pairwise startLE)
    (hrun : s.animateSchedule seq = .ok (buckets, minr)) :
    buckets.flatten.Perm seq ∧ ∀ b ∈ buckets, b.Pairwise startLE := by
  unfold Scheduling.animateSchedule at hrun
  cases hres : scheduleLoop s.dist_f seq (List.replicate s.nAct (none, -1))
      (List.replicate s.nAct []) 1000000 with
  | error e =>
    rw [hres] at hrun
    simp [Except.map] at hrun
  | ok r =>
    rw [hres] at hrun
    simp only [Except.map, Except.ok.injEq] at hrun
    have hc := scheduleLoop_conserve s.dist_f seq _ _ _ r
      (by simp) hsorted
      (by intro b hb
          rw [List.eq_of_mem_replicate hb]
          exact List.Pairwise.nil)
      (by intro b hb n hn m hm
          rw [List.eq_of_mem_replicate hb] at hn
          simp at hn)
      hres
    obtain ⟨hperm, hpw⟩ := hc
    rw [join_replicate_nil, List.nil_append] at hperm
    have hb1 : buckets = r.2.1 := by
      rw [hrun]
    rw [hb1]
    exact ⟨hperm, hpw⟩

/-- Witness for C6 at a concrete run: two simultaneous notes on one
actuator are conserved in one start-ascending bucket. -/
theorem C6_conservation_witness :
    ([[cn0, cn1]] : List (List Note)).flatten.Perm [cn0, cn1] ∧
    ∀ b ∈ ([[cn0, cn1]] : List (List Note)), b.Pairwise startLE :=
  C6_conservation sched1 [cn0, cn1] [[cn0, cn1]] (-1)
    (by simp [List.pairwise_cons, startLE, cn0, cn1])
    (by norm_num [Scheduling.animateSchedule, scheduleLoop, rewardFor,
      argmaxIdx, maxList, appendAt, sched1, cn0, cn1, DIST_LINEAR,
      List.replicate, Except.map])

/-- Run lemma for C5: while every reward an already-assigned actuator can
score stays strictly below the idle sentinel `1e6`, each note is assigned to
the first never-used actuator, so `k` processed notes occupy the first `k`
actuators one note each. -/
theorem scheduleLoop_fresh (dist : Nat → Nat → ℚ) :
    ∀ (rest pre : List Note),
    (∀ a ∈ pre ++ rest, ∀ c ∈ pre ++ rest,
      c.start - a.start - dist c.ind a.ind < 1000000) →
    scheduleLoop dist rest
        (pre.map (fun n => (some n.ind, n.start)) ++
          List.replicate rest.length (none, -1))
        (pre.map (fun n => [n]) ++ List.replicate rest.length []) 1000000
      = .ok ((pre ++ rest).map (fun n => (some n.ind, n.start)),
             (pre ++ rest).map (fun n => [n]), 1000000) := by
  intro rest
  induction rest with
  | nil =>
    intro pre hb
    simp [scheduleLoop]
  | cons note rest ih =>
    intro pre hb
    have hnote : note ∈ pre ++ note :: rest := by simp
    have hrew : (pre.map (fun n => (some n.ind, n.start)) ++
          List.replicate (note :: rest).length ((none : Option Nat), (-1 : ℚ))).map
          (rewardFor dist note)
        = pre.map (fun p => note.start - p.start - dist note.ind p.ind) ++
          (1000000 : ℚ) :: List.replicate rest.length 1000000 := by
      simp only [List.map_append, List.map_map, List.length_cons,
        List.replicate_succ, List.map_cons, List.map_replicate]
      rfl
    have hx : ∀ x ∈ pre.map (fun p => note.start - p.start - dist note.ind p.ind),
        x < 1000000 := by
      intro x hx
      simp only [List.mem_map] at hx
      obtain ⟨p, hp, rfl⟩ := hx
      exact hb p (by simp [hp]) note hnote
    have hy : ∀ y ∈ List.replicate rest.length (1000000 : ℚ), y ≤ 1000000 := by
      intro y hy
      rw [List.eq_of_mem_replicate hy]
    simp only [scheduleLoop]
    rw [hrew]
    rw [if_neg (by simp)]
    rw [argmaxIdx_concat _ _ _ hx hy, maxList_concat _ _ _ hx hy]
    rw [if_neg (by norm_num)]
    have hset : ((pre.map (fun n => (some n.ind, n.start)) ++
          List.replicate (note :: rest).length ((none : Option Nat), (-1 : ℚ)))).set
          (pre.map (fun p => note.start - p.start - dist note.ind p.ind)).length
          (some note.ind, note.start)
        = (pre ++ [note]).map (fun n => (some n.ind, n.start)) ++
          List.replicate rest.length (none, -1) := by
      rw [List.length_cons, List.replicate_succ]
      have h0 := set_append_length (pre.map (fun n => ((some n.ind : Option Nat), n.start)))
        ((none : Option Nat), (-1 : ℚ))
        (List.replicate rest.length ((none : Option Nat), (-1 : ℚ)))
        (some note.ind, note.start)
      rw [List.length_map] at h0
      rw [List.length_map]
      rw [h0]
      simp
    have happ : appendAt (pre.map (fun n => [n]) ++
          List.replicate (note :: rest).length [])
          (pre.map (fun p => note.start - p.start - dist note.ind p.ind)).length note
        = (pre ++ [note]).map (fun n => [n]) ++ List.replicate rest.length [] := by
      rw [List.length_cons, List.replicate_succ]
      have h0 := appendAt_append_length (pre.map (fun n => [n])) []
        (List.replicate rest.length []) note
      rw [List.length_map] at h0
      rw [List.length_map]
      rw [h0]
      simp
    rw [hset, happ, min_self]
    have hb2 : ∀ a ∈ (pre ++ [note]) ++ rest, ∀ c ∈ (pre ++ [note]) ++ rest,
        c.start - a.start - dist c.ind a.ind < 1000000 := by
      intro a ha c hc
      rw [List.append_assoc, List.singleton_append] at ha hc
      exact hb a ha c hc
    have h1 := ih (pre ++ [note]) hb2
    rw [h1, List.append_assoc, List.singleton_append]

/-- C5 (amended): if the actuator count equals the note count and every
possible assigned-actuator reward `c.start − a.start − dist_f(c.ind, a.ind)`
stays below the idle sentinel `1e6`, every note is assigned to a distinct
never-before-used actuator (bucket `i` is exactly `[seq[i]]`); without that
bound the sentinel — itself a finite value — can be matched or beaten by an
idle-time reward, and an already-used actuator is chosen again (see the
counterexample). -/
theorem C5_amended (s : Scheduling) (seq : List Note)
    (hn : s.nAct = seq.length)
    (hb : ∀ a ∈ seq, ∀ c ∈ seq, c.start - a.start - s.dist_f c.ind a.ind < 1000000) :
    s.animateSchedule seq = .ok (seq.map (fun n => [n]), 1000000) := by
  unfold Scheduling.animateSchedule
  rw [hn]
  have h1 := scheduleLoop_fresh s.dist_f seq [] (by simpa using hb)
  simp only [List.nil_append, List.map_nil] at h1
  rw [h1]
  simp [Except.map]

/-- Witness for C5 (amended): two simultaneous notes on two actuators end up
one per actuator. -/
theorem C5_amended_witness :
    sched2.animateSchedule [cn0, cn1] = .ok ([cn0, cn1].map (fun n => [n]), 1000000) :=
  C5_amended sched2 [cn0, cn1] rfl
    (by intro a ha c hc
        simp only [List.mem_cons, List.not_mem_nil, or_false] at ha hc
        rcases ha with rfl | rfl <;> rcases hc with rfl | rfl <;>
          norm_num [sched2, cn0, cn1, DIST_LINEAR])

end BMusic
